import Mathlib

/-!
Verification of the micromdns daemon (`src/main.rs`) against its
natural-language specification.

Shallow embedding conventions:
* Rust strings are modelled as `List Char`; the character-level helpers
  `trimStr` and `splitComma` model `str::trim` and `str::split(',')`.
* `IpAddr` is modelled as a linearly ordered value (`Nat`); `is_loopback`
  is carried as a field of the enumerated interface entry, since the core
  only ever consults it as a boolean attribute of an entry.
* The external collaborators (OS interface enumeration, the mdns
  responder) are inputs: enumeration results are passed in as values of
  type `Except IoError (List IfEntry)`, and the outcome of the responder
  constructor is passed in as `Except IoError Handle`.  The call made to
  the responder constructor is reified as a `StartCall` value.
* The steady-state poll loop body (one tick of `main`) is the function
  `main_tick`, returning the updated loop state together with the list of
  stop/start events performed on that tick, in order.
-/

/-- The whitespace test used by `str::trim`: Rust's
`char::is_whitespace`, i.e. the Unicode White_Space property.  Its
members are U+0009..U+000D, U+0020, U+0085, U+00A0, U+1680,
U+2000..U+200A, U+2028, U+2029, U+202F, U+205F and U+3000. -/
def isWsChar (c : Char) : Bool :=
  decide (c.toNat ∈ [0x09, 0x0A, 0x0B, 0x0C, 0x0D, 0x20, 0x85, 0xA0, 0x1680,
    0x2028, 0x2029, 0x202F, 0x205F, 0x3000]) ||
  (decide (0x2000 ≤ c.toNat) && decide (c.toNat ≤ 0x200A))

/-- Rust `str::trim`: drop whitespace from both ends. -/
def trimStr (s : List Char) : List Char :=
  ((s.dropWhile isWsChar).reverse.dropWhile isWsChar).reverse

/-- Rust `value.split(',')` on character lists; on the empty string it
yields the single empty token, as Rust's `split` does. -/
def splitComma : List Char → List (List Char)
  | [] => [[]]
  | c :: rest =>
    if c = ',' then [] :: splitComma rest
    else
      match splitComma rest with
      | [] => [[c]]
      | t :: ts => (c :: t) :: ts

/-- All comma-split tokens of a raw value list (`-i` occurrences). -/
def raw_tokens (values : List (List Char)) : List (List Char) :=
  values.flatMap splitComma

/-- IP addresses, abstracted to a linearly ordered value. -/
abbrev IpAddr := Nat

/-- I/O errors, abstracted to their message. -/
abbrev IoError := List Char

/-- Opaque handle of a running responder (`libmdns::Responder`). -/
abbrev Handle := Nat

/-- One entry of the OS interface enumeration (`if_addrs::Interface`).
`loopback` models the `is_loopback()` attribute of the entry. -/
structure IfEntry where
  name : List Char
  ip : IpAddr
  index : Option Nat
  loopback : Bool
  deriving DecidableEq

/-- `InterfaceSnapshot` from the source: one observed interface entry. -/
structure InterfaceSnapshot where
  name : List Char
  ip : IpAddr
  index : Option Nat
  deriving DecidableEq

/-- `InterfaceFilter`: all interfaces, or a set of names.  The `BTreeSet`
is modelled as a strictly sorted list in lexicographic order. -/
inductive InterfaceFilter where
  | All : InterfaceFilter
  | Only : List (List Char) → InterfaceFilter
  deriving DecidableEq

/-- `BTreeSet::insert`, on the sorted-list model of the set. -/
def btreeInsert (x : List Char) : List (List Char) → List (List Char)
  | [] => [x]
  | y :: rest =>
    if x < y then x :: y :: rest
    else if x = y then y :: rest
    else y :: btreeInsert x rest

/-- Inner loop of `InterfaceFilter::from_values`: fold the comma-split
items of one value into the accumulated set; `none` models the early
`return Self::All` on a `"*"` token. -/
def addTokens (acc : List (List Char)) : List (List Char) → Option (List (List Char))
  | [] => some acc
  | item :: rest =>
    let iface := trimStr item
    if iface = [] then addTokens acc rest
    else if iface = "*".data then none
    else addTokens (btreeInsert iface acc) rest

/-- Outer loop of `InterfaceFilter::from_values` over the raw values. -/
def addValues (acc : List (List Char)) : List (List Char) → Option (List (List Char))
  | [] => some acc
  | v :: rest =>
    match addTokens acc (splitComma v) with
    | none => none
    | some acc2 => addValues acc2 rest

/-- `InterfaceFilter::from_values`. -/
def InterfaceFilter.from_values (values : List (List Char)) : InterfaceFilter :=
  if values = [] then .All
  else
    match addValues [] values with
    | none => .All
    | some selected => if selected = [] then .All else .Only selected

/-- `InterfaceFilter::matches`. -/
def InterfaceFilter.matches : InterfaceFilter → List Char → Bool
  | .All, _ => true
  | .Only only, ifaceName => only.contains ifaceName

/-- Order on the optional interface index (`Option<u32>` under Rust's
derived `Ord`: `None` before `Some`). -/
def idxLE : Option Nat → Option Nat → Prop
  | none, _ => True
  | some _, none => False
  | some x, some y => x ≤ y

instance (a b : Option Nat) : Decidable (idxLE a b) :=
  match a, b with
  | none, _ => isTrue trivial
  | some _, none => isFalse id
  | some x, some y => (inferInstance : Decidable (x ≤ y))

/-- The derived lexicographic order on `InterfaceSnapshot` over
(name, ip, index), as produced by Rust's `#[derive(PartialOrd, Ord)]`. -/
def snapLE (a b : InterfaceSnapshot) : Prop :=
  a.name < b.name ∨
    (a.name = b.name ∧ (a.ip < b.ip ∨ (a.ip = b.ip ∧ idxLE a.index b.index)))

instance (a b : InterfaceSnapshot) : Decidable (snapLE a b) := by
  unfold snapLE
  infer_instance

instance : DecidableRel snapLE := fun _ _ => inferInstance

/-- The filtering loop body of `collect_snapshot`: skip loopback, skip
non-matching names, keep (name, ip, index). -/
def collect_entries (filter : InterfaceFilter) : List IfEntry → List InterfaceSnapshot
  | [] => []
  | iface :: rest =>
    if iface.loopback then collect_entries filter rest
    else if !(filter.matches iface.name) then collect_entries filter rest
    else { name := iface.name, ip := iface.ip, index := iface.index } ::
      collect_entries filter rest

/-- `collect_snapshot` on a successful enumeration: filter then sort. -/
def collect_snapshot_list (filter : InterfaceFilter) (ifaces : List IfEntry) :
    List InterfaceSnapshot :=
  List.insertionSort snapLE (collect_entries filter ifaces)

/-- `collect_snapshot`, with the enumeration outcome as input; an
enumeration failure propagates (`get_if_addrs()?`). -/
def collect_snapshot (filter : InterfaceFilter) :
    Except IoError (List IfEntry) → Except IoError (List InterfaceSnapshot)
  | .error e => .error e
  | .ok ifaces => .ok (collect_snapshot_list filter ifaces)

/-- `collect_missing_interfaces` on a successful enumeration: the
selected names that occur nowhere in the full enumeration. -/
def collect_missing_interfaces (filter : InterfaceFilter) (ifaces : List IfEntry) :
    List (List Char) :=
  match filter with
  | .All => []
  | .Only selected => selected.filter (fun iface => !(ifaces.map IfEntry.name).contains iface)

/-- `Vec::dedup`: remove consecutive equal elements. -/
def dedup_consecutive : List IpAddr → List IpAddr
  | [] => []
  | [x] => [x]
  | x :: y :: rest =>
    if x = y then dedup_consecutive (y :: rest)
    else x :: dedup_consecutive (y :: rest)

/-- `selected_ips`: empty for `All`; sorted deduplicated snapshot
addresses for `Only`. -/
def selected_ips (filter : InterfaceFilter) (snapshot : List InterfaceSnapshot) :
    List IpAddr :=
  match filter with
  | .All => []
  | .Only _ =>
    dedup_consecutive (List.insertionSort (· ≤ ·) (snapshot.map InterfaceSnapshot.ip))

/-- Rust `str::ends_with`, as a suffix test on character lists. -/
def ends_with (s pat : List Char) : Bool := decide (pat <:+ s)

/-- The characters of the domain literal `".local"`. -/
def localDomain : List Char := ".local".data

/-- `fqdn_name`. -/
def fqdn_name (name : List Char) : List Char :=
  if ends_with name localDomain then name else name ++ localDomain

/-- The argument package handed to the responder constructor
(`Responder::with_default_handle_and_ip_list_and_hostname`). -/
structure StartCall where
  hostname : List Char
  allowed_ips : List IpAddr
  deriving DecidableEq

/-- `start_responder`, reified as the call it makes to the collaborator:
the hostname argument is `name.to_owned()` and the ip list is
`selected_ips(filter, snapshot)`. -/
def start_responder_call (name : List Char) (filter : InterfaceFilter)
    (snapshot : List InterfaceSnapshot) : StartCall :=
  { hostname := name, allowed_ips := selected_ips filter snapshot }

/-- The loop-local state of `main`: held snapshot and held responder. -/
structure LoopState where
  snapshot : List InterfaceSnapshot
  responder : Option Handle
  deriving DecidableEq

/-- Observable stop/start interactions with the responder collaborator. -/
inductive Event where
  | stop : Handle → Event
  | start : StartCall → Event
  deriving DecidableEq

/-- One tick of the steady-state loop in `main`: refresh the snapshot
(`enum` is this tick's enumeration outcome), compare, and on a change
drop the held responder and attempt a restart (`start_result` is the
collaborator's answer to that attempt).  Returns the new loop state and
the stop/start events of the tick, in order. -/
def main_tick (name : List Char) (filter : InterfaceFilter)
    (enum : Except IoError (List IfEntry)) (start_result : Except IoError Handle)
    (st : LoopState) : LoopState × List Event :=
  match collect_snapshot filter enum with
  | .error _ => (st, [])
  | .ok current =>
    if current = st.snapshot then (st, [])
    else
      let stops : List Event :=
        match st.responder with
        | some h => [Event.stop h]
        | none => []
      let call := start_responder_call name filter current
      match start_result with
      | .ok h => ({ snapshot := current, responder := some h }, stops ++ [Event.start call])
      | .error _ => ({ snapshot := current, responder := none }, stops ++ [Event.start call])

/-- Appending the domain suffix always yields a string ending in it. -/
theorem ends_with_append_localDomain (s : List Char) :
    ends_with (s ++ localDomain) localDomain = true :=
  decide_eq_true (List.suffix_append s localDomain)

/-- C10: `fqdn_name` output always ends with `".local"`, and `fqdn_name`
is idempotent. -/
theorem claim_C10_fqdn_idempotent (n : List Char) :
    ends_with (fqdn_name n) localDomain = true ∧
      fqdn_name (fqdn_name n) = fqdn_name n := by
  by_cases h : ends_with n localDomain = true
  · refine ⟨by simp [fqdn_name, h], ?_⟩
    simp [fqdn_name, h]
  · have h2 := ends_with_append_localDomain n
    refine ⟨by simp [fqdn_name, h, h2], ?_⟩
    simp only [fqdn_name, h, if_false, Bool.not_eq_true]
    simp [h2]

/-- C1 fails on the code: `start_responder` hands the collaborator the
requested name itself, not the `".local"`-normalized canonical name; at
the name `"foo"` the two differ. -/
theorem claim_C1_counterexample :
    (start_responder_call "foo".data InterfaceFilter.All []).hostname ≠
      fqdn_name "foo".data := by decide

/-- C1 (amended): for every requested name, filter and snapshot, the
start operation invokes the collaborator with the requested name
unchanged (the canonical `".local"` name appears only in the log), and
with the address list `selected_ips filter snapshot`. -/
theorem claim_C1_amended (name : List Char) (filter : InterfaceFilter)
    (snapshot : List InterfaceSnapshot) :
    (start_responder_call name filter snapshot).hostname = name ∧
      (start_responder_call name filter snapshot).allowed_ips =
        selected_ips filter snapshot :=
  ⟨rfl, rfl⟩

/-- C4: when the tick's snapshot collection fails with an I/O error, the
loop state (held snapshot and held handle) is unchanged and no stop or
start call occurs. -/
theorem claim_C4_enumeration_failure (name : List Char) (filter : InterfaceFilter)
    (err : IoError) (start_result : Except IoError Handle) (st : LoopState) :
    main_tick name filter (Except.error err) start_result st = (st, []) := rfl

/-- C2: on a Running-state tick whose collection succeeds, an unchanged
snapshot causes no stop and no start; a changed snapshot causes exactly
one stop of the held handle (when one is held, none otherwise) followed
by exactly one start, and the held snapshot becomes the new one. -/
theorem claim_C2_change_detection (name : List Char) (filter : InterfaceFilter)
    (enum : Except IoError (List IfEntry)) (start_result : Except IoError Handle)
    (st : LoopState) (current : List InterfaceSnapshot)
    (hok : collect_snapshot filter enum = .ok current) :
    (current = st.snapshot → main_tick name filter enum start_result st = (st, [])) ∧
    (current ≠ st.snapshot →
      (main_tick name filter enum start_result st).1.snapshot = current ∧
      ((∃ h, st.responder = some h ∧
          (main_tick name filter enum start_result st).2 =
            [Event.stop h, Event.start (start_responder_call name filter current)]) ∨
        (st.responder = none ∧
          (main_tick name filter enum start_result st).2 =
            [Event.start (start_responder_call name filter current)]))) := by
  constructor
  · intro he
    simp [main_tick, hok, he]
  · intro hne
    simp only [main_tick, hok, if_neg hne]
    cases hr : st.responder with
    | none =>
      cases start_result with
      | ok h => exact ⟨rfl, Or.inr ⟨rfl, rfl⟩⟩
      | error e => exact ⟨rfl, Or.inr ⟨rfl, rfl⟩⟩
    | some h =>
      cases start_result with
      | ok h2 => exact ⟨rfl, Or.inl ⟨h, rfl, rfl⟩⟩
      | error e => exact ⟨rfl, Or.inl ⟨h, rfl, rfl⟩⟩

/-- Closed instance of C2 at a concrete changed tick. -/
theorem claim_C2_witness :
    (main_tick "n".data InterfaceFilter.All (.ok []) (.ok 7)
        ⟨[⟨"a".data, 1, none⟩], some 3⟩).1.snapshot = [] ∧
    (main_tick "n".data InterfaceFilter.All (.ok []) (.ok 7)
        ⟨[⟨"a".data, 1, none⟩], some 3⟩).2 =
      [Event.stop 3, Event.start (start_responder_call "n".data InterfaceFilter.All [])] := by
  have h := (claim_C2_change_detection "n".data InterfaceFilter.All (.ok []) (.ok 7)
      ⟨[⟨"a".data, 1, none⟩], some 3⟩ [] rfl).2 (by decide)
  obtain ⟨h1, ⟨hh, hsome, hev⟩ | ⟨hnone, _⟩⟩ := h
  · injection hsome with h4
    subst h4
    exact ⟨h1, hev⟩
  · exact absurd hnone (by decide)

/-- C3: a changed tick whose restart fails leaves the new snapshot held
with no live handle, and a later tick collecting that same snapshot
performs no stop/start attempt. -/
theorem claim_C3_failed_restart (name : List Char) (filter : InterfaceFilter)
    (enum : Except IoError (List IfEntry)) (err : IoError) (st : LoopState)
    (current : List InterfaceSnapshot)
    (hok : collect_snapshot filter enum = .ok current)
    (hne : current ≠ st.snapshot) :
    (main_tick name filter enum (.error err) st).1 = ⟨current, none⟩ ∧
    ∀ enum2 sr2, collect_snapshot filter enum2 = .ok current →
      main_tick name filter enum2 sr2 ⟨current, none⟩ = (⟨current, none⟩, []) := by
  constructor
  · simp only [main_tick, hok, if_neg hne]
  · intro enum2 sr2 hok2
    simp [main_tick, hok2]

/-- Closed instance of C3 at a concrete failed restart. -/
theorem claim_C3_witness :
    (main_tick "n".data InterfaceFilter.All (.ok []) (.error "e".data)
        ⟨[⟨"a".data, 1, none⟩], some 3⟩).1 = ⟨[], none⟩ ∧
    main_tick "n".data InterfaceFilter.All (.ok []) (.ok 9)
        ⟨[], none⟩ = (⟨[], none⟩, []) := by
  have h := claim_C3_failed_restart "n".data InterfaceFilter.All (.ok []) "e".data
      ⟨[⟨"a".data, 1, none⟩], some 3⟩ [] rfl (by decide)
  exact ⟨h.1, h.2 (.ok []) (.ok 9) rfl⟩

/-- `idxLE` is total. -/
theorem idxLE_total (a b : Option Nat) : idxLE a b ∨ idxLE b a :=
  match a, b with
  | none, _ => Or.inl trivial
  | some _, none => Or.inr trivial
  | some x, some y => Nat.le_total x y

/-- `idxLE` is transitive. -/
theorem idxLE_trans : ∀ {a b c : Option Nat}, idxLE a b → idxLE b c → idxLE a c :=
  fun {a b c} =>
  match a, b, c with
  | none, _, _ => fun _ _ => trivial
  | some _, none, _ => fun h _ => h.elim
  | some _, some _, none => fun _ h => h.elim
  | some _, some _, some _ => Nat.le_trans

/-- `idxLE` is antisymmetric. -/
theorem idxLE_antisymm : ∀ {a b : Option Nat}, idxLE a b → idxLE b a → a = b :=
  fun {a b} =>
  match a, b with
  | none, none => fun _ _ => rfl
  | none, some _ => fun _ h => h.elim
  | some _, none => fun h _ => h.elim
  | some _, some _ => fun h1 h2 => congrArg some (Nat.le_antisymm h1 h2)

/-- `snapLE` is total. -/
theorem snapLE_total (a b : InterfaceSnapshot) : snapLE a b ∨ snapLE b a := by
  rcases lt_trichotomy a.name b.name with h | h | h
  · exact Or.inl (Or.inl h)
  · rcases lt_trichotomy a.ip b.ip with h2 | h2 | h2
    · exact Or.inl (Or.inr ⟨h, Or.inl h2⟩)
    · rcases idxLE_total a.index b.index with h3 | h3
      · exact Or.inl (Or.inr ⟨h, Or.inr ⟨h2, h3⟩⟩)
      · exact Or.inr (Or.inr ⟨h.symm, Or.inr ⟨h2.symm, h3⟩⟩)
    · exact Or.inr (Or.inr ⟨h.symm, Or.inl h2⟩)
  · exact Or.inr (Or.inl h)

/-- `snapLE` is transitive. -/
theorem snapLE_trans {a b c : InterfaceSnapshot} (h1 : snapLE a b) (h2 : snapLE b c) :
    snapLE a c := by
  rcases h1 with hn1 | ⟨he1, hi1⟩
  · rcases h2 with hn2 | ⟨he2, _⟩
    · exact Or.inl (lt_trans hn1 hn2)
    · exact Or.inl (he2 ▸ hn1)
  · rcases h2 with hn2 | ⟨he2, hi2⟩
    · exact Or.inl (he1 ▸ hn2)
    · refine Or.inr ⟨he1.trans he2, ?_⟩
      rcases hi1 with hp1 | ⟨hq1, hr1⟩
      · rcases hi2 with hp2 | ⟨hq2, _⟩
        · exact Or.inl (lt_trans hp1 hp2)
        · exact Or.inl (hq2 ▸ hp1)
      · rcases hi2 with hp2 | ⟨hq2, hr2⟩
        · exact Or.inl (hq1 ▸ hp2)
        · exact Or.inr ⟨hq1.trans hq2, idxLE_trans hr1 hr2⟩

/-- `snapLE` is antisymmetric. -/
theorem snapLE_antisymm {a b : InterfaceSnapshot} (h1 : snapLE a b) (h2 : snapLE b a) :
    a = b := by
  rcases h1 with hn1 | ⟨he1, hi1⟩
  · rcases h2 with hn2 | ⟨he2, _⟩
    · exact absurd (lt_trans hn1 hn2) (lt_irrefl _)
    · exact absurd (he2 ▸ hn1) (lt_irrefl _)
  · rcases h2 with hn2 | ⟨he2, hi2⟩
    · exact absurd (he1 ▸ hn2) (lt_irrefl _)
    · rcases hi1 with hp1 | ⟨hq1, hr1⟩
      · rcases hi2 with hp2 | ⟨hq2, _⟩
        · exact absurd (lt_trans hp1 hp2) (lt_irrefl _)
        · exact absurd (hq2 ▸ hp1) (lt_irrefl _)
      · rcases hi2 with hp2 | ⟨hq2, hr2⟩
        · exact absurd (hq1 ▸ hp2) (lt_irrefl _)
        · obtain ⟨n1, i1, x1⟩ := a
          obtain ⟨n2, i2, x2⟩ := b
          simp only [InterfaceSnapshot.mk.injEq]
          exact ⟨he1, hq1, idxLE_antisymm hr1 hr2⟩

instance : IsTotal InterfaceSnapshot snapLE := ⟨snapLE_total⟩

instance : IsTrans InterfaceSnapshot snapLE := ⟨fun _ _ _ => snapLE_trans⟩

instance : IsAntisymm InterfaceSnapshot snapLE := ⟨fun _ _ => snapLE_antisymm⟩

/-- The filtering loop of `collect_snapshot` is a filter followed by a
projection. -/
theorem collect_entries_eq (filter : InterfaceFilter) (l : List IfEntry) :
    collect_entries filter l =
      (l.filter (fun i => !i.loopback && filter.matches i.name)).map
        (fun i => ⟨i.name, i.ip, i.index⟩) := by
  induction l with
  | nil => rfl
  | cons i rest ih =>
    by_cases hl : i.loopback
    · simp [collect_entries, hl, List.filter_cons, ih]
    · by_cases hm : filter.matches i.name
      · simp [collect_entries, hl, hm, List.filter_cons, ih]
      · simp [collect_entries, hl, hm, List.filter_cons, ih]

/-- C5 (amended): `collect_snapshot` returns a sequence sorted by the
total order over (name, address, index) — duplicate entries produced by
the enumeration are kept, not removed — and permuting the enumeration
result does not change the collected snapshot. -/
theorem claim_C5_amended (filter : InterfaceFilter) (l1 l2 : List IfEntry)
    (hp : l1.Perm l2) :
    List.Sorted snapLE (collect_snapshot_list filter l1) ∧
      collect_snapshot_list filter l1 = collect_snapshot_list filter l2 := by
  refine ⟨List.sorted_insertionSort snapLE _, ?_⟩
  have hperm : (collect_entries filter l1).Perm (collect_entries filter l2) := by
    rw [collect_entries_eq, collect_entries_eq]
    exact (hp.filter _).map _
  exact List.eq_of_perm_of_sorted
    ((List.perm_insertionSort snapLE _).trans
      (hperm.trans (List.perm_insertionSort snapLE _).symm))
    (List.sorted_insertionSort snapLE _) (List.sorted_insertionSort snapLE _)

/-- Closed instance of the amended C5 on a concrete permutation. -/
theorem claim_C5_witness :
    List.Sorted snapLE (collect_snapshot_list InterfaceFilter.All
      [⟨"b".data, 2, none, false⟩, ⟨"a".data, 1, none, false⟩]) ∧
    collect_snapshot_list InterfaceFilter.All
        [⟨"b".data, 2, none, false⟩, ⟨"a".data, 1, none, false⟩] =
      collect_snapshot_list InterfaceFilter.All
        [⟨"a".data, 1, none, false⟩, ⟨"b".data, 2, none, false⟩] :=
  claim_C5_amended InterfaceFilter.All _ _ (List.Perm.swap _ _ _)

/-- C5 fails as stated: when the enumeration hands back the same entry
twice, the collected snapshot keeps the duplicate (`collect_snapshot`
sorts but never deduplicates). -/
theorem claim_C5_counterexample :
    ¬ (collect_snapshot_list InterfaceFilter.All
        [⟨"eth0".data, 5, some 1, false⟩, ⟨"eth0".data, 5, some 1, false⟩]).Nodup := by
  decide

/-- Unfolding equation for `dedup_consecutive` on two-or-more lists. -/
theorem dedup_consecutive_cons_cons (x y : IpAddr) (rest : List IpAddr) :
    dedup_consecutive (x :: y :: rest) =
      if x = y then dedup_consecutive (y :: rest)
      else x :: dedup_consecutive (y :: rest) := rfl

/-- `dedup_consecutive` never changes which addresses occur. -/
theorem mem_dedup_consecutive : ∀ (l : List IpAddr) (x : IpAddr),
    x ∈ dedup_consecutive l ↔ x ∈ l
  | [], _ => Iff.rfl
  | [_], _ => Iff.rfl
  | y :: z :: rest, x => by
    have ih := mem_dedup_consecutive (z :: rest) x
    rw [dedup_consecutive_cons_cons]
    by_cases h : y = z
    · subst h
      rw [if_pos rfl, ih]
      simp only [List.mem_cons]
      tauto
    · rw [if_neg h]
      simp only [List.mem_cons, ih]

/-- On a `≤`-sorted list, removing consecutive duplicates yields a
strictly sorted list. -/
theorem sorted_dedup_consecutive : ∀ l : List IpAddr, List.Pairwise (· ≤ ·) l →
    List.Pairwise (· < ·) (dedup_consecutive l)
  | [], _ => List.Pairwise.nil
  | [_], _ => by simp [dedup_consecutive]
  | y :: z :: rest, hs => by
    obtain ⟨hy, htail⟩ := List.pairwise_cons.mp hs
    have ih := sorted_dedup_consecutive (z :: rest) htail
    rw [dedup_consecutive_cons_cons]
    by_cases h : y = z
    · rw [if_pos h]
      exact ih
    · rw [if_neg h]
      refine List.pairwise_cons.mpr ⟨?_, ih⟩
      intro b hb
      have hbmem : b ∈ z :: rest := (mem_dedup_consecutive (z :: rest) b).mp hb
      rcases List.mem_cons.mp hbmem with rfl | hbr
      · exact lt_of_le_of_ne (hy b hbmem) h
      · have hzb : z ≤ b := (List.pairwise_cons.mp htail).1 b hbr
        have hyz : y ≤ z := hy z (List.mem_cons_self z rest)
        refine lt_of_le_of_ne (hy b hbmem) (fun he => h ?_)
        exact le_antisymm hyz (he.symm ▸ hzb)

/-- C8: `selected_ips` is empty under the `All` filter even on a
non-empty snapshot; under an `Only` filter it is the strictly sorted
(hence duplicate-free) sequence of exactly the addresses occurring in
the snapshot. -/
theorem claim_C8_selected_ips (filter : InterfaceFilter)
    (snapshot : List InterfaceSnapshot) :
    (filter = .All → selected_ips filter snapshot = []) ∧
    (∀ sel, filter = .Only sel →
      List.Pairwise (· < ·) (selected_ips filter snapshot) ∧
      ∀ ip, ip ∈ selected_ips filter snapshot ↔
        ip ∈ snapshot.map InterfaceSnapshot.ip) := by
  constructor
  · rintro rfl
    rfl
  · rintro sel rfl
    constructor
    · exact sorted_dedup_consecutive _
        (List.sorted_insertionSort (fun a b => a ≤ b) _)
    · intro ip
      show ip ∈ dedup_consecutive _ ↔ _
      rw [mem_dedup_consecutive]
      exact (List.perm_insertionSort (fun a b => a ≤ b) _).mem_iff

/-- Closed instance of C8 at a concrete filter and snapshot. -/
theorem claim_C8_witness :
    selected_ips InterfaceFilter.All [⟨"a".data, 5, none⟩] = [] ∧
    (7 ∈ selected_ips (InterfaceFilter.Only ["a".data])
        [⟨"a".data, 7, none⟩, ⟨"b".data, 7, none⟩] ↔
      7 ∈ ([⟨"a".data, 7, none⟩, ⟨"b".data, 7, none⟩] :
        List InterfaceSnapshot).map InterfaceSnapshot.ip) :=
  ⟨(claim_C8_selected_ips InterfaceFilter.All [⟨"a".data, 5, none⟩]).1 rfl,
    ((claim_C8_selected_ips (InterfaceFilter.Only ["a".data])
      [⟨"a".data, 7, none⟩, ⟨"b".data, 7, none⟩]).2 ["a".data] rfl).2 7⟩

/-- C9: `collect_missing_interfaces` is empty under `All`, and under
`Only sel` holds exactly the members of `sel` appearing nowhere as a
name in the full enumeration (loopback entries included). -/
theorem claim_C9_collect_missing (ifaces : List IfEntry) :
    collect_missing_interfaces .All ifaces = [] ∧
    ∀ sel m, m ∈ collect_missing_interfaces (.Only sel) ifaces ↔
      (m ∈ sel ∧ ∀ i ∈ ifaces, i.name ≠ m) := by
  refine ⟨rfl, fun sel m => ?_⟩
  simp [collect_missing_interfaces, List.mem_filter]

/-- Closed instance of C9 at a concrete enumeration. -/
theorem claim_C9_witness :
    collect_missing_interfaces InterfaceFilter.All [⟨"lo".data, 1, none, true⟩] = [] ∧
    ("wlan0".data ∈ collect_missing_interfaces (InterfaceFilter.Only ["wlan0".data])
        [⟨"lo".data, 1, none, true⟩] ↔
      ("wlan0".data ∈ ["wlan0".data] ∧
        ∀ i ∈ ([⟨"lo".data, 1, none, true⟩] : List IfEntry), i.name ≠ "wlan0".data)) :=
  ⟨(claim_C9_collect_missing [⟨"lo".data, 1, none, true⟩]).1,
    (claim_C9_collect_missing [⟨"lo".data, 1, none, true⟩]).2 ["wlan0".data] "wlan0".data⟩

/-- Membership after a `btreeInsert`. -/
theorem mem_btreeInsert (x y : List Char) : ∀ l, y ∈ btreeInsert x l ↔ y = x ∨ y ∈ l := by
  intro l
  induction l with
  | nil => simp [btreeInsert]
  | cons z rest ih =>
    by_cases h1 : x < z
    · simp [btreeInsert, if_pos h1, List.mem_cons]
    · by_cases h2 : x = z
      · subst h2
        simp [btreeInsert, if_neg h1, List.mem_cons]
      · simp only [btreeInsert, if_neg h1, if_neg h2, List.mem_cons, ih]
        tauto

/-- `btreeInsert` keeps the set strictly sorted. -/
theorem sorted_btreeInsert (x : List Char) : ∀ l, List.Pairwise (· < ·) l →
    List.Pairwise (· < ·) (btreeInsert x l) := by
  intro l
  induction l with
  | nil =>
    intro _
    simp [btreeInsert]
  | cons z rest ih =>
    intro hp
    obtain ⟨hz, hrest⟩ := List.pairwise_cons.mp hp
    by_cases h1 : x < z
    · rw [show btreeInsert x (z :: rest) = x :: z :: rest from by
        simp [btreeInsert, if_pos h1]]
      refine List.pairwise_cons.mpr ⟨?_, hp⟩
      intro b hb
      rcases List.mem_cons.mp hb with rfl | hb2
      · exact h1
      · exact lt_trans h1 (hz b hb2)
    · by_cases h2 : x = z
      · rw [show btreeInsert x (z :: rest) = z :: rest from by
          simp [btreeInsert, if_neg h1, if_pos h2]]
        exact hp
      · rw [show btreeInsert x (z :: rest) = z :: btreeInsert x rest from by
          simp [btreeInsert, if_neg h1, if_neg h2]]
        refine List.pairwise_cons.mpr ⟨?_, ih hrest⟩
        intro b hb
        rcases (mem_btreeInsert x b rest).mp hb with rfl | hb2
        · rcases lt_trichotomy b z with h | h | h
          · exact absurd h h1
          · exact absurd h h2
          · exact h
        · exact hz b hb2

/-- The inner token loop aborts to `All` exactly on a `"*"` token. -/
theorem addTokens_eq_none : ∀ (items acc : List (List Char)),
    addTokens acc items = none ↔ ∃ t ∈ items, trimStr t = "*".data := by
  intro items
  induction items with
  | nil =>
    intro acc
    simp [addTokens]
  | cons item rest ih =>
    intro acc
    by_cases h1 : trimStr item = []
    · have hne : ([] : List Char) ≠ "*".data := by decide
      simp [addTokens, h1, ih, hne]
    · by_cases h2 : trimStr item = "*".data
      · simp [addTokens, h1, h2]
      · simp [addTokens, h1, h2, ih]

/-- Membership in the set built by the inner token loop. -/
theorem addTokens_some_mem (x : List Char) : ∀ (items acc s : List (List Char)),
    addTokens acc items = some s →
    (x ∈ s ↔ x ∈ acc ∨ ∃ t ∈ items, trimStr t = x ∧ x ≠ []) := by
  intro items
  induction items with
  | nil =>
    intro acc s h
    obtain rfl : acc = s := by simpa [addTokens] using h
    simp
  | cons item rest ih =>
    intro acc s h
    by_cases h1 : trimStr item = []
    · rw [show addTokens acc (item :: rest) = addTokens acc rest from by
        simp [addTokens, h1]] at h
      rw [ih acc s h]
      constructor
      · rintro (hc | ⟨t, ht, hp⟩)
        · exact Or.inl hc
        · exact Or.inr ⟨t, List.mem_cons_of_mem _ ht, hp⟩
      · rintro (hc | ⟨t, ht, hp⟩)
        · exact Or.inl hc
        · rcases List.mem_cons.mp ht with rfl | ht2
          · exact absurd (h1.symm.trans hp.1).symm hp.2
          · exact Or.inr ⟨t, ht2, hp⟩
    · by_cases h2 : trimStr item = "*".data
      · rw [show addTokens acc (item :: rest) = none from by
          simp [addTokens, h1, h2]] at h
        simp at h
      · rw [show addTokens acc (item :: rest) =
            addTokens (btreeInsert (trimStr item) acc) rest from by
          simp [addTokens, h1, h2]] at h
        rw [ih _ s h, mem_btreeInsert]
        constructor
        · rintro ((hx | hx) | ⟨t, ht, hp⟩)
          · subst hx
            exact Or.inr ⟨item, List.mem_cons_self _ _, rfl, h1⟩
          · exact Or.inl hx
          · exact Or.inr ⟨t, List.mem_cons_of_mem _ ht, hp⟩
        · rintro (hx | ⟨t, ht, hp⟩)
          · exact Or.inl (Or.inr hx)
          · rcases List.mem_cons.mp ht with rfl | ht2
            · exact Or.inl (Or.inl hp.1.symm)
            · exact Or.inr ⟨t, ht2, hp⟩

/-- The inner token loop keeps the accumulated set strictly sorted. -/
theorem addTokens_some_sorted : ∀ (items acc s : List (List Char)),
    List.Pairwise (· < ·) acc → addTokens acc items = some s →
    List.Pairwise (· < ·) s := by
  intro items
  induction items with
  | nil =>
    intro acc s hp h
    obtain rfl : acc = s := by simpa [addTokens] using h
    exact hp
  | cons item rest ih =>
    intro acc s hp h
    by_cases h1 : trimStr item = []
    · rw [show addTokens acc (item :: rest) = addTokens acc rest from by
        simp [addTokens, h1]] at h
      exact ih acc s hp h
    · by_cases h2 : trimStr item = "*".data
      · rw [show addTokens acc (item :: rest) = none from by
          simp [addTokens, h1, h2]] at h
        simp at h
      · rw [show addTokens acc (item :: rest) =
            addTokens (btreeInsert (trimStr item) acc) rest from by
          simp [addTokens, h1, h2]] at h
        exact ih _ s (sorted_btreeInsert _ _ hp) h

/-- `raw_tokens` over a cons. -/
theorem raw_tokens_cons (v : List Char) (rest : List (List Char)) :
    raw_tokens (v :: rest) = splitComma v ++ raw_tokens rest := by
  simp [raw_tokens]

/-- The outer loop aborts to `All` exactly on a `"*"` token. -/
theorem addValues_eq_none : ∀ (values acc : List (List Char)),
    addValues acc values = none ↔ ∃ t ∈ raw_tokens values, trimStr t = "*".data := by
  intro values
  induction values with
  | nil =>
    intro acc
    simp [addValues, raw_tokens]
  | cons v rest ih =>
    intro acc
    cases haux : addTokens acc (splitComma v) with
    | none =>
      have hstar := (addTokens_eq_none (splitComma v) acc).mp haux
      simp only [addValues, haux, raw_tokens_cons]
      constructor
      · intro _
        obtain ⟨t, ht, hp⟩ := hstar
        exact ⟨t, List.mem_append_left _ ht, hp⟩
      · intro _
        trivial
    | some acc2 =>
      have hnostar : ¬ ∃ t ∈ splitComma v, trimStr t = "*".data := by
        intro hc
        have hcn := (addTokens_eq_none (splitComma v) acc).mpr hc
        rw [hcn] at haux
        simp at haux
      simp only [addValues, haux, raw_tokens_cons, ih]
      constructor
      · rintro ⟨t, ht, hp⟩
        exact ⟨t, List.mem_append_right _ ht, hp⟩
      · rintro ⟨t, ht, hp⟩
        rcases List.mem_append.mp ht with hh | hh
        · exact absurd ⟨t, hh, hp⟩ hnostar
        · exact ⟨t, hh, hp⟩

/-- Membership in the set built by the full `from_values` fold. -/
theorem addValues_some_mem (x : List Char) : ∀ (values acc s : List (List Char)),
    addValues acc values = some s →
    (x ∈ s ↔ x ∈ acc ∨ ∃ t ∈ raw_tokens values, trimStr t = x ∧ x ≠ []) := by
  intro values
  induction values with
  | nil =>
    intro acc s h
    obtain rfl : acc = s := by simpa [addValues] using h
    simp [raw_tokens]
  | cons v rest ih =>
    intro acc s h
    cases haux : addTokens acc (splitComma v) with
    | none =>
      rw [show addValues acc (v :: rest) = none from by simp [addValues, haux]] at h
      simp at h
    | some acc2 =>
      rw [show addValues acc (v :: rest) = addValues acc2 rest from by
        simp [addValues, haux]] at h
      rw [ih acc2 s h, addTokens_some_mem x (splitComma v) acc acc2 haux,
        raw_tokens_cons]
      constructor
      · rintro ((hx | ⟨t, ht, hp⟩) | ⟨t, ht, hp⟩)
        · exact Or.inl hx
        · exact Or.inr ⟨t, List.mem_append_left _ ht, hp⟩
        · exact Or.inr ⟨t, List.mem_append_right _ ht, hp⟩
      · rintro (hx | ⟨t, ht, hp⟩)
        · exact Or.inl (Or.inl hx)
        · rcases List.mem_append.mp ht with hh | hh
          · exact Or.inl (Or.inr ⟨t, hh, hp⟩)
          · exact Or.inr ⟨t, hh, hp⟩

/-- The full `from_values` fold keeps the set strictly sorted. -/
theorem addValues_some_sorted : ∀ (values acc s : List (List Char)),
    List.Pairwise (· < ·) acc → addValues acc values = some s →
    List.Pairwise (· < ·) s := by
  intro values
  induction values with
  | nil =>
    intro acc s hp h
    obtain rfl : acc = s := by simpa [addValues] using h
    exact hp
  | cons v rest ih =>
    intro acc s hp h
    cases haux : addTokens acc (splitComma v) with
    | none =>
      rw [show addValues acc (v :: rest) = none from by simp [addValues, haux]] at h
      simp at h
    | some acc2 =>
      rw [show addValues acc (v :: rest) = addValues acc2 rest from by
        simp [addValues, haux]] at h
      exact ih acc2 s (addTokens_some_sorted (splitComma v) acc acc2 hp haux) h

/-- A `"*"` token anywhere collapses `from_values` to `All`. -/
theorem from_values_eq_all_of_wildcard (values : List (List Char))
    (h : ∃ t ∈ raw_tokens values, trimStr t = "*".data) :
    InterfaceFilter.from_values values = .All := by
  by_cases hv : values = []
  · simp [InterfaceFilter.from_values, hv]
  · have hn : addValues [] values = none := (addValues_eq_none values []).mpr h
    simp [InterfaceFilter.from_values, hv, hn]

/-- An empty value list, or one whose tokens all trim to empty,
collapses `from_values` to `All`. -/
theorem from_values_eq_all_of_trivial (values : List (List Char))
    (h : values = [] ∨ ∀ t ∈ raw_tokens values, trimStr t = []) :
    InterfaceFilter.from_values values = .All := by
  rcases h with rfl | hall
  · rfl
  · by_cases hv : values = []
    · simp [InterfaceFilter.from_values, hv]
    · cases haux : addValues [] values with
      | none =>
        simp [InterfaceFilter.from_values, hv, haux]
      | some s =>
        have hmem : ∀ x, x ∉ s := by
          intro x hx
          rcases (addValues_some_mem x values [] s haux).mp hx with
            hx0 | ⟨t, ht, hp1, hp2⟩
          · exact absurd hx0 (List.not_mem_nil x)
          · exact hp2 ((hall t ht).symm.trans hp1).symm
        have hsnil : s = [] := List.eq_nil_iff_forall_not_mem.mpr hmem
        subst hsnil
        simp [InterfaceFilter.from_values, hv, haux]

/-- On a non-empty, wildcard-free value list with at least one token
that trims non-empty, `from_values` yields `Only` of exactly the set of
trimmed non-empty tokens. -/
theorem from_values_only_spec (values : List (List Char))
    (hne : values ≠ [])
    (hnw : ∀ t ∈ raw_tokens values, trimStr t ≠ "*".data)
    (hone : ∃ t ∈ raw_tokens values, trimStr t ≠ []) :
    ∃ s, InterfaceFilter.from_values values = .Only s ∧
      List.Pairwise (· < ·) s ∧
      ∀ x, x ∈ s ↔ ((∃ t ∈ raw_tokens values, trimStr t = x) ∧ x ≠ []) := by
  cases haux : addValues [] values with
  | none =>
    obtain ⟨t, ht, hp⟩ := (addValues_eq_none values []).mp haux
    exact absurd hp (hnw t ht)
  | some s =>
    obtain ⟨t0, ht0, hp0⟩ := hone
    have hmem : ∀ x, x ∈ s ↔ ((∃ t ∈ raw_tokens values, trimStr t = x) ∧ x ≠ []) := by
      intro x
      rw [addValues_some_mem x values [] s haux]
      constructor
      · rintro (hx0 | ⟨t, ht, hp1, hp2⟩)
        · exact absurd hx0 (List.not_mem_nil x)
        · exact ⟨⟨t, ht, hp1⟩, hp2⟩
      · rintro ⟨⟨t, ht, hp1⟩, hp2⟩
        exact Or.inr ⟨t, ht, hp1, hp2⟩
    have hsne : s ≠ [] := by
      intro hnil
      have hin := (hmem (trimStr t0)).mpr ⟨⟨t0, ht0, rfl⟩, hp0⟩
      rw [hnil] at hin
      exact absurd hin (List.not_mem_nil _)
    refine ⟨s, ?_, addValues_some_sorted values [] s List.Pairwise.nil haux, hmem⟩
    simp [InterfaceFilter.from_values, hne, haux, hsne]

/-- C6: `from_values` yields `All` when any comma-split trimmed token is
`"*"`, or when the list is empty or every token trims to empty;
otherwise it yields `Only` of the set of trimmed non-empty tokens. -/
theorem claim_C6_from_values (values : List (List Char)) :
    ((∃ t ∈ raw_tokens values, trimStr t = "*".data) →
      InterfaceFilter.from_values values = .All) ∧
    ((values = [] ∨ ∀ t ∈ raw_tokens values, trimStr t = []) →
      InterfaceFilter.from_values values = .All) ∧
    ((values ≠ [] ∧ (∀ t ∈ raw_tokens values, trimStr t ≠ "*".data) ∧
        ∃ t ∈ raw_tokens values, trimStr t ≠ []) →
      ∃ s, InterfaceFilter.from_values values = .Only s ∧
        List.Pairwise (· < ·) s ∧
        ∀ x, x ∈ s ↔ ((∃ t ∈ raw_tokens values, trimStr t = x) ∧ x ≠ [])) :=
  ⟨from_values_eq_all_of_wildcard values,
    from_values_eq_all_of_trivial values,
    fun h => from_values_only_spec values h.1 h.2.1 h.2.2⟩

/-- Closed instance of C6 on concrete token lists for all three arms. -/
theorem claim_C6_witness :
    InterfaceFilter.from_values ["a, *".data] = .All ∧
    InterfaceFilter.from_values [" ".data, "".data] = .All ∧
    InterfaceFilter.from_values ["b,a".data] ≠ .All := by
  refine ⟨(claim_C6_from_values ["a, *".data]).1 ⟨" *".data, by decide, by decide⟩,
    (claim_C6_from_values [" ".data, "".data]).2.1 (Or.inr (by decide)), ?_⟩
  obtain ⟨s, hs, _, _⟩ := (claim_C6_from_values ["b,a".data]).2.2
    ⟨by decide, by decide, ⟨"b".data, by decide, by decide⟩⟩
  simp [hs]

/-- C7 fails as stated: over the trimmed tokens of the raw list the
advertised equivalence breaks in both directions.  With values
`["a", " "]` the empty name is a trimmed token of the list, yet
`matches` rejects it (empty-after-trim tokens are dropped); with values
`[" "]` (non-empty, wildcard-free) the name `"x"` is no trimmed token,
yet `matches` accepts it (the filter collapsed to `All`). -/
theorem claim_C7_counterexample :
    ((["a".data, " ".data] : List (List Char)) ≠ [] ∧
      (∀ t ∈ raw_tokens ["a".data, " ".data], trimStr t ≠ "*".data) ∧
      [] ∈ (raw_tokens ["a".data, " ".data]).map trimStr ∧
      (InterfaceFilter.from_values ["a".data, " ".data]).matches [] = false) ∧
    (([" ".data] : List (List Char)) ≠ [] ∧
      (∀ t ∈ raw_tokens [" ".data], trimStr t ≠ "*".data) ∧
      "x".data ∉ (raw_tokens [" ".data]).map trimStr ∧
      (InterfaceFilter.from_values [" ".data]).matches "x".data = true) := by
  decide

/-- C7 (amended): on a non-empty, wildcard-free raw token list at least
one of whose tokens trims non-empty, `matches` on the built filter
accepts exactly the names that equal some trimmed *non-empty* token of
the list; the `All` filter accepts every name. -/
theorem claim_C7_matches (values : List (List Char)) (n : List Char)
    (hne : values ≠ [])
    (hnw : ∀ t ∈ raw_tokens values, trimStr t ≠ "*".data)
    (hone : ∃ t ∈ raw_tokens values, trimStr t ≠ []) :
    ((InterfaceFilter.from_values values).matches n = true ↔
      (n ∈ (raw_tokens values).map trimStr ∧ n ≠ [])) ∧
    ∀ m, InterfaceFilter.All.matches m = true := by
  obtain ⟨s, hs, _, hmem⟩ := from_values_only_spec values hne hnw hone
  refine ⟨?_, fun m => rfl⟩
  rw [hs]
  show List.elem n s = true ↔ _
  rw [List.elem_iff, hmem n]
  simp only [List.mem_map]

/-- Closed instance of the amended C7 at a concrete filter. -/
theorem claim_C7_witness :
    (InterfaceFilter.from_values ["eth0".data]).matches "eth0".data = true ∧
    (InterfaceFilter.from_values ["eth0".data]).matches "wlan0".data = false := by
  have h := claim_C7_matches ["eth0".data] "eth0".data (by decide) (by decide)
    ⟨"eth0".data, by decide, by decide⟩
  have h2 := claim_C7_matches ["eth0".data] "wlan0".data (by decide) (by decide)
    ⟨"eth0".data, by decide, by decide⟩
  refine ⟨h.1.mpr ⟨by decide, by decide⟩, ?_⟩
  cases hb : (InterfaceFilter.from_values ["eth0".data]).matches "wlan0".data with
  | false => rfl
  | true => exact absurd (h2.1.mp hb) (by decide)
